import Mathlib

/-
Verification development for the wenqu document chunking core
(hierarchical Markdown section splitter, language-aware recursive text
splitter, chunk assembler).

Texts are modelled as lists of characters (`Tx`).  Python dictionaries are
modelled as assignment sequences (`Meta`), where a lookup returns the value
of the LAST assignment of a key, matching the semantics of Python dict
literals such as `{"title": t, "type": ty, **section_metadata, **metadata}`.

External collaborators (the markdown-it parser, the mdformat renderer and
BeautifulSoup) are not reimplemented: a parsed node carries its rendered
text and its extracted HTML table/img findings as data.
-/

set_option maxHeartbeats 1000000

namespace Wenqu

/-- Texts are lists of characters. -/
abbrev Tx := List Char

/-- Converts a string literal into a `Tx`. -/
def tx (s : String) : Tx := s.toList

/-- Whitespace characters recognised by Python `str.strip()` / `str.split()`
(space, tab, newline, carriage return, vertical tab, form feed). -/
def isWs (c : Char) : Bool :=
  c = ' ' || c = '\t' || c = '\n' || c = '\r' || c = Char.ofNat 11 || c = Char.ofNat 12

/-- Python `str.strip()`: removes leading and trailing whitespace. -/
def pyStrip (s : Tx) : Tx :=
  ((s.dropWhile isWs).reverse.dropWhile isWs).reverse

/-- Python `str.split()`: splits on whitespace runs, discarding empty words. -/
def pySplitWs (s : Tx) : List Tx :=
  (s.splitOnP isWs).filter (· ≠ [])

/-- Index of the leftmost occurrence of `sep` in `s`, if any. -/
def findSub (sep : Tx) : Tx → Option Nat
  | [] => if sep.isPrefixOf [] then some 0 else none
  | c :: rest =>
    if sep.isPrefixOf (c :: rest) then some 0 else (findSub sep rest).map (· + 1)

/-- Whether `sep` occurs (as a contiguous substring) in `s`. -/
def occursIn (sep s : Tx) : Bool := (findSub sep s).isSome

/-- Python `s.find(sub, start)`: smallest index `i ≥ start` at which `sub`
occurs in `s`, and `-1` when there is none. -/
def pyFind (s sub : Tx) (start : Nat) : Int :=
  if s.length < start then -1
  else
    match findSub sub (s.drop start) with
    | some i => ((start + i : Nat) : Int)
    | none => -1

/-- Modelled from the spec: one pass of dividing a text at every occurrence of
a single literal separator (the separator itself is consumed).  The
implementation of the recursive bounded splitter is external to `src/`
(inherited from the `RecursiveCharacterTextSplitter` dependency), so this
follows the spec's words: "the splitter uses the first separator that
actually occurs in the text to divide it".  The fuel argument makes the
recursion structural; one unit of fuel is consumed per emitted piece, so
`s.length + 1` fuel is always sufficient for a nonempty separator. -/
def sdGo (sep : Tx) : Nat → Tx → List Tx
  | 0, s => [s]
  | fuel + 1, s =>
    match findSub sep s with
    | none => [s]
    | some i => s.take i :: sdGo sep fuel (s.drop (i + sep.length))

/-- Divides `s` at every occurrence of `sep`, dropping empty pieces.  The
empty separator splits into single characters, mirroring the cascade's final
hard length boundary described by the spec. -/
def splitPieces (sep : Tx) (s : Tx) : List Tx :=
  if sep = [] then s.map (fun c => [c])
  else (sdGo sep (s.length + 1) s).filter (· ≠ [])

/-- Modelled from the spec: the separator cascade.  "Separators are tried in
priority order (most specific first); the splitter uses the first separator
that actually occurs in the text to divide it, then recursively re-applies
the remaining (less specific) separators to any resulting piece still over
`chunk_size`"; a piece no cascade separator divides is returned whole. -/
def splitRecS (cs : Nat) : List Tx → Tx → List Tx
  | [], s => if s = [] then [] else [s]
  | sep :: rest, s =>
    if occursIn sep s then
      (splitPieces sep s).flatMap fun p =>
        if p.length ≤ cs then [p] else splitRecS cs rest p
    else splitRecS cs rest s

/-- Emits the merge buffer as one chunk, stripped of surrounding whitespace
(`strip_whitespace` defaults to true); an empty result is dropped. -/
def flushDoc (buf : Tx) : List Tx :=
  let t := pyStrip buf
  if t = [] then [] else [t]

/-- Modelled from the spec: "Adjacent pieces under the target size are
greedily merged until adding the next piece would exceed `chunk_size`".
Per the spec, overlap "is used for offset bookkeeping only — overlap is
realized by the caller recomputing offsets, not by duplicating text into the
chunk content itself", so merging is plain concatenation.  An oversized
piece is passed through whole and unstripped. -/
def mergeGo (cs : Nat) : Tx → List Tx → List Tx
  | buf, [] => flushDoc buf
  | buf, p :: ps =>
    if cs < p.length then flushDoc buf ++ p :: mergeGo cs [] ps
    else if cs < (buf ++ p).length then flushDoc buf ++ mergeGo cs p ps
    else mergeGo cs (buf ++ p) ps

/-- Modelled from the spec: the recursive bounded splitter
(`RecursiveCharacterTextSplitter._split_text`), §4.5 of the spec: divide by
the separator cascade, then greedily merge adjacent small pieces. -/
def boundedSplit (cs : Nat) (seps : List Tx) (s : Tx) : List Tx :=
  mergeGo cs [] (splitRecS cs seps s)

/-- A metadata value: a string or an integer. -/
inductive MVal where
  | s (v : Tx)
  | i (n : Int)
deriving DecidableEq, Repr

/-- A Python dict modelled as an assignment sequence: dict literals such as
`{"title": t, "type": ty, **section_metadata, **metadata}` become the
concatenation of the assignment sequences, and a lookup reads the LAST
assignment of the key, matching Python's later-keys-win semantics. -/
abbrev Meta := List (Tx × MVal)

/-- Dictionary lookup: the value of the last assignment of key `k` (later
entries take priority, as in Python). -/
def mget : Meta → Tx → Option MVal
  | [], _ => none
  | e :: rest, k =>
    match mget rest k with
    | some w => some w
    | none => if e.1 == k then some e.2 else none

mutual

/-- One node of the markdown-it syntax tree (`SyntaxTreeNode`).  `rendered`
holds the text the external MDRenderer produces for the node
(`_get_treenode_text`; an empty list when rendering fails), `src` the image
node's `src` attribute, and `htmlTable`/`htmlImg` the results of the
external BeautifulSoup searches `_find_html_table`/`_find_html_img` on the
node's content (the string form of the found element; for img also its
`src` attribute). -/
inductive MdNode where
  | mk (ntype : Tx) (markup : Tx) (rendered : Tx) (src : Tx)
      (htmlTable : Option Tx) (htmlImg : Option (Tx × Tx))
      (children : MdForest)

/-- An ordered sequence of sibling nodes (a node's `children`); the mutual
presentation of a rose tree keeps the recursions of `_is_contain_nontext`
and `_get_nontext_content` structural. -/
inductive MdForest where
  | nil
  | cons (n : MdNode) (f : MdForest)

end

/-- The node's type discriminator (`node.type`). -/
def MdNode.ntype : MdNode → Tx
  | .mk t _ _ _ _ _ _ => t

/-- The node's markup string (`node.markup`, e.g. `"##"` for a level-2
heading). -/
def MdNode.markup : MdNode → Tx
  | .mk _ m _ _ _ _ _ => m

/-- The node's externally rendered text (`_get_treenode_text`). -/
def MdNode.rendered : MdNode → Tx
  | .mk _ _ r _ _ _ _ => r

/-- The node's `src` attribute (`node.attrs["src"]`, image nodes). -/
def MdNode.src : MdNode → Tx
  | .mk _ _ _ s _ _ _ => s

/-- The external `_find_html_table` result on the node's content. -/
def MdNode.htmlTable : MdNode → Option Tx
  | .mk _ _ _ _ t _ _ => t

/-- The external `_find_html_img` result on the node's content. -/
def MdNode.htmlImg : MdNode → Option (Tx × Tx)
  | .mk _ _ _ _ _ i _ => i

/-- The node's ordered children. -/
def MdNode.children : MdNode → MdForest
  | .mk _ _ _ _ _ _ c => c

mutual

/-- Embeds `_is_contain_nontext`: true for image and table nodes, for raw-HTML
nodes containing a `<table>` or `<img>` element, and for any node with a
non-text descendant. -/
def isContainNontext : MdNode → Bool
  | .mk t _ _ _ ht hi cs =>
    (t == tx "image" || t == tx "table")
    || ((t == tx "html_block" || t == tx "html_inline") && (ht.isSome || hi.isSome))
    || anyContainNontext cs

/-- Embeds `any(self._is_contain_nontext(c) for c in node.children)`. -/
def anyContainNontext : MdForest → Bool
  | .nil => false
  | .cons n f => isContainNontext n || anyContainNontext f

end

/-- An intermediate Section yielded by `_split_by_header`: title, body,
kind and section metadata. -/
structure Sec where
  title : Tx
  body : Tx
  kind : Tx
  smeta : Meta
deriving DecidableEq, Repr

mutual

/-- Embeds `_get_nontext_content`: a Markdown image yields one image unit whose
body is the `src` attribute, a Markdown table yields one table unit of its
rendered text, an HTML block/inline node yields a table unit and/or an
image unit from the BeautifulSoup findings, and any other node recurses
into the children that contain non-text content. -/
def getNontextContent : MdNode → Tx → List Sec
  | .mk t _ rendered src ht hi cs, title =>
    if t == tx "image" then
      [{ title := title, body := src, kind := tx "image",
         smeta := [(tx "image_url", .s src)] }]
    else if t == tx "table" then
      [{ title := title, body := rendered, kind := tx "table", smeta := [] }]
    else if t == tx "html_block" || t == tx "html_inline" then
      (match ht with
        | some tb => [{ title := title, body := tb, kind := tx "table", smeta := [] }]
        | none => [])
      ++ (match hi with
        | some (img, isrc) =>
          [{ title := title, body := img, kind := tx "image",
             smeta := [(tx "image_url", .s isrc)] }]
        | none => [])
    else
      getNontextChildren cs title

/-- The `for child in node.children` loop of `_get_nontext_content`:
children whose subtree contains no non-text content are skipped. -/
def getNontextChildren : MdForest → Tx → List Sec
  | .nil, _ => []
  | .cons c f, title =>
    (if isContainNontext c then getNontextContent c title else [])
      ++ getNontextChildren f title

end

/-- Embeds `_get_treenodes_text`: concatenation of the rendered texts of the nodes
whose subtree contains no non-text content. -/
def getTreenodesText (nodes : List MdNode) : Tx :=
  (nodes.filter (fun n => !isContainNontext n)).flatMap MdNode.rendered

/-- Embeds `_get_nodes_nontext_contents`: the non-text units of the nodes that
contain non-text content, in document order. -/
def getNodesNontextContents (nodes : List MdNode) (title : Tx) : List Sec :=
  nodes.flatMap fun n =>
    if isContainNontext n then getNontextContent n title else []

/-- Embeds `more_itertools.split_before`: partitions a list into runs, starting a
new run immediately before each element satisfying `p`; runs are nonempty
and concatenate to the input. -/
def splitBefore (p : α → Bool) (l : List α) : List (List α) :=
  let r := l.foldl
    (fun (acc : List (List α) × List α) x =>
      if p x && !acc.2.isEmpty then (acc.1 ++ [acc.2], [x]) else (acc.1, acc.2 ++ [x]))
    ([], [])
  if r.2.isEmpty then r.1 else r.1 ++ [r.2]

/-- The body of `_split_by_header`'s loop over one run produced by
`split_before`, with the recursive descent passed in as `recurse`.  A run
led by a heading at the current level recurses one level deeper with the
extended parent title; any other run yields its text section followed by
its non-text units.  `parentTitle` is an `Option` to model Python's
`None`: the truthiness test `if parent_title` is false for both `None` and
the empty string, while the title default uses an explicit `is None`
check. -/
def sbhRun (recurse : List MdNode → Tx → Option Tx → List Sec)
    (headerMarkup : Tx) (parentTitle : Option Tx) : List MdNode → List Sec
  | [] => []
  | first :: rest =>
    if first.ntype == tx "heading" && first.markup == headerMarkup then
      let headerText := pyStrip first.rendered
      let newParent :=
        match parentTitle with
        | some pt => if pt = [] then headerText else pt ++ tx " > " ++ headerText
        | none => headerText
      recurse rest (headerMarkup ++ tx "#") (some newParent)
    else
      let title := parentTitle.getD []
      { title := title, body := getTreenodesText (first :: rest), kind := tx "text",
        smeta := [] }
        :: getNodesNontextContents (first :: rest) title

/-- Embeds `_split_by_header`, with structural fuel: every recursive call consumes
the run's leading heading node, so `nodes.length + 1` fuel is always
sufficient. -/
def sbhGo : Nat → List MdNode → Tx → Option Tx → List Sec
  | 0, _, _, _ => []
  | fuel + 1, nodes, headerMarkup, parentTitle =>
    (splitBefore (fun n => n.ntype == tx "heading" && n.markup == headerMarkup) nodes).flatMap
      (sbhRun (sbhGo fuel) headerMarkup parentTitle)

/-- Embeds `_split_by_header` at its always-sufficient fuel. -/
def splitByHeader (nodes : List MdNode) (headerMarkup : Tx) (parentTitle : Option Tx) : List Sec :=
  sbhGo (nodes.length + 1) nodes headerMarkup parentTitle

/-- The splitter configuration (the `MarkdownTextSplitter.__init__`
arguments the claims depend on).  Separators are literal
(`is_separator_regex` false); `keep_separator` handling is internal to the
spec-modelled bounded splitter. -/
structure SplitCfg where
  chunkSize : Nat
  chunkOverlap : Nat
  addStartIndex : Bool
  seps : List Tx
deriving Repr

/-- The per-section body of `split_text`'s loop: a falsy (empty) body is
skipped, a non-text section is emitted as a single chunk, and a text
section is stripped and recursively split, each piece carrying the merged
metadata `{"title": ..., "type": ..., **section_metadata, **metadata}`.
The `ValueError` branch for an invalid section type is modelled as an empty
contribution; it is unreachable because `_split_by_header` only yields
text, image and table sections. -/
def processSection (cfg : SplitCfg) (metadata : Meta) (sec : Sec) : List (Tx × Meta) :=
  if sec.body = [] then []
  else if sec.kind == tx "image" || sec.kind == tx "table" then
    [(sec.body,
      [(tx "title", .s sec.title), (tx "type", .s sec.kind)] ++ sec.smeta ++ metadata)]
  else if sec.kind == tx "text" then
    (boundedSplit cfg.chunkSize cfg.seps (pyStrip sec.body)).map fun c =>
      (c, [(tx "title", .s sec.title), (tx "type", .s sec.kind)] ++ sec.smeta ++ metadata)
  else []

/-- Embeds `split_text`: yields `(chunk, metadata)` pairs section by section.  The
markdown-it parse is an external collaborator, so the function takes the
parsed node sequence (the root's children) instead of re-parsing the raw
text. -/
def split_text (cfg : SplitCfg) (tree : List MdNode) (metadata : Meta) : List (Tx × Meta) :=
  (splitByHeader tree (tx "#") none).flatMap (processSection cfg metadata)

/-- Embeds `_metadatas = (metadatas or [{}]) * len(texts)` indexed at a position
`i < len(texts)`: the empty list falls back to empty dicts, otherwise the
repetition makes index `i` read `metadatas[i % len(metadatas)]`. -/
def metaAt (metadatas : List Meta) (i : Nat) : Meta :=
  if metadatas.isEmpty then [] else metadatas.getD (i % metadatas.length) []

/-- The offset loop of `create_documents` over one document's chunk stream:
an image or table chunk passes through untouched; otherwise, when
`add_start_index` is enabled, the chunk is located in the document text by
`text.find(chunk, max(0, index + previous_chunk_len - chunk_overlap))` and
the found index is assigned to `metadata["start_index"]`. -/
def processDoc (cfg : SplitCfg) (text : Tx) : Int → Nat → List (Tx × Meta) → List (Tx × Meta)
  | _, _, [] => []
  | index, prevLen, (c, md) :: rest =>
    if mget md (tx "type") = some (.s (tx "image"))
        ∨ mget md (tx "type") = some (.s (tx "table")) then
      (c, md) :: processDoc cfg text index prevLen rest
    else if cfg.addStartIndex then
      let offset : Int := index + (prevLen : Int) - (cfg.chunkOverlap : Int)
      let idx : Int := pyFind text c (max 0 offset).toNat
      (c, md ++ [(tx "start_index", .i idx)]) :: processDoc cfg text idx c.length rest
    else
      (c, md) :: processDoc cfg text index prevLen rest

/-- Embeds `create_documents`: each document is paired with its externally parsed
node tree; the caller metadata for document `i` is deep-copied (the
identity in this value model; the aliasing discipline is verified on the
store-passing model below) and the document's chunk stream is assembled in
order. -/
def create_documents (cfg : SplitCfg) (docs : List (Tx × List MdNode))
    (metadatas : List Meta) : List (Tx × Meta) :=
  docs.enum.flatMap fun d =>
    processDoc cfg d.2.1 0 0 (split_text cfg d.2.2 (metaAt metadatas d.1))

/-- The splitter parameters selected by `get_splitter`: the separator list
passed on to the splitter constructor (`none` models passing `None` through
in the EN branch) and the regex-mode flag. -/
structure SplitterSel where
  seps : Option (List Tx)
  regexFlag : Bool
deriving DecidableEq, Repr

/-- Embeds `get_splitter` (`TXTParser` / `MarkdownParser`): language-dependent
separator selection.  The Chinese default cascade (`CHINESE_SEPARATOR`,
defined outside `src/`) is a parameter.  `self.separators or
CHINESE_SEPARATOR` and `self.is_separator_regex if self.separators else
True` use Python truthiness, under which `None` and the empty list both
fall back to the default.  Returns `none` for an unsupported language (the
source raises `ValueError` there). -/
def get_splitter (chineseSeparator : List Tx) (lang : Tx)
    (callerSeps : Option (List Tx)) (callerRegex : Bool) : Option SplitterSel :=
  if lang = tx "EN" then
    some { seps := callerSeps, regexFlag := callerRegex }
  else if lang = tx "ZH" then
    match callerSeps with
    | some l =>
      if l = [] then some { seps := some chineseSeparator, regexFlag := true }
      else some { seps := some l, regexFlag := callerRegex }
    | none => some { seps := some chineseSeparator, regexFlag := true }
  else none

/-- A store of live Python dicts for the aliasing/mutation analysis of
`create_documents`: a reference is an index into the store. -/
abbrev Store := List Meta

/-- Allocates a fresh dict, returning the new store and the fresh
reference. -/
def alloc (st : Store) (m : Meta) : Store × Nat := (st ++ [m], st.length)

/-- Reads the dict a reference points to (unallocated references read as
empty; the modelled runs never produce them). -/
def readRef (st : Store) (r : Nat) : Meta := st.getD r []

/-- An in-place dict update such as `metadata["start_index"] = index`:
appends an assignment to the dict at `r`. -/
def writeKey (st : Store) (r : Nat) (k : Tx) (v : MVal) : Store :=
  st.set r (st.getD r [] ++ [(k, v)])

/-- The store-passing offset loop of `create_documents` over one document's
section stream.  `split_text` constructs a fresh dict per chunk — the dict
literal `{"title": ..., "type": ..., **section_metadata, **metadata}` — so
each chunk allocates a fresh reference holding the document-generated
prefix followed by the entries of the document's deep copy `cpy`; the
`start_index` assignment then mutates that fresh dict only. -/
def processDocSt (cfg : SplitCfg) (text : Tx) (cpy : Nat) :
    Int → Nat → List (Tx × Meta) → Store → Store × List (Tx × Nat)
  | _, _, [], st => (st, [])
  | index, prevLen, (c, pre) :: rest, st =>
    let merged := pre ++ readRef st cpy
    let st1 := (alloc st merged).1
    let r := (alloc st merged).2
    if mget merged (tx "type") = some (.s (tx "image"))
        ∨ mget merged (tx "type") = some (.s (tx "table")) then
      let out := processDocSt cfg text cpy index prevLen rest st1
      (out.1, (c, r) :: out.2)
    else if cfg.addStartIndex then
      let offset : Int := index + (prevLen : Int) - (cfg.chunkOverlap : Int)
      let idx : Int := pyFind text c (max 0 offset).toNat
      let st2 := writeKey st1 r (tx "start_index") (.i idx)
      let out := processDocSt cfg text cpy idx c.length rest st2
      (out.1, (c, r) :: out.2)
    else
      let out := processDocSt cfg text cpy index prevLen rest st1
      (out.1, (c, r) :: out.2)

/-- The caller metadata reference for document `i` under
`(metadatas or [{}]) * len(texts)`: `none` stands for the fresh empty dict
of the `[{}]` fallback. -/
def refAt (metaRefs : List Nat) (i : Nat) : Option Nat :=
  if metaRefs.isEmpty then none else some (metaRefs.getD (i % metaRefs.length) 0)

/-- One document's step of the store-passing `create_documents`: the caller
dict is read and deep-copied into a fresh reference
(`copy.deepcopy(_metadatas[i])`; values are atomic here, so the copy holds
the same entries), and the document's chunk stream is assembled with all
dict construction and mutation going through the store. -/
def cdStepSt (cfg : SplitCfg) (metaRefs : List Nat)
    (acc : Store × List (Tx × Nat)) (d : Nat × (Tx × List MdNode)) :
    Store × List (Tx × Nat) :=
  let base := match refAt metaRefs d.1 with
    | some r => readRef acc.1 r
    | none => []
  let st1 := (alloc acc.1 base).1
  let cpy := (alloc acc.1 base).2
  let out := processDocSt cfg d.2.1 cpy 0 0 (split_text cfg d.2.2 []) st1
  (out.1, acc.2 ++ out.2)

/-- The store-passing `create_documents`, folding the per-document step over
the enumerated documents. -/
def create_documents_st (cfg : SplitCfg) (docs : List (Tx × List MdNode))
    (metaRefs : List Nat) (st : Store) : Store × List (Tx × Nat) :=
  docs.enum.foldl (cdStepSt cfg metaRefs) (st, [])

/-- One store is an extension of another when it is at least as long and
reads the same dicts at all previously allocated references. -/
def StoreExtends (st st' : Store) : Prop :=
  st.length ≤ st'.length ∧ ∀ r, r < st.length → readRef st' r = readRef st r

/-- Embeds `BaseParser.get_language`.  The underlying detector
(`fast_langdetect.detect_language`) is external and can raise, so it is
modelled as a function into `Except`.  The source truncates the text to 500
characters, collapses whitespace runs to single spaces, calls the detector
with NO exception handler, and maps any returned tag outside EN/ZH to EN. -/
def get_language (detect : Tx → Except Tx Tx) (text : Tx) : Except Tx Tx :=
  let t := if 500 < text.length then text.take 500 else text
  (detect (List.intercalate (tx " ") (pySplitWs t))).map fun lang =>
    if lang = tx "EN" ∨ lang = tx "ZH" then lang else tx "EN"

/-- A heading node with the given markup and rendered text (markdown-it
heading nodes carry the ATX marker as `markup`; mdformat renders a heading
back to its marked-up source line). -/
def hdg (m r : String) : MdNode := .mk (tx "heading") (tx m) (tx r) [] none none .nil

/-- A plain paragraph node with the given rendered text. -/
def par (r : String) : MdNode := .mk (tx "paragraph") [] (tx r) [] none none .nil

/-- A Markdown image node with the given `src` attribute. -/
def img (u : String) : MdNode := .mk (tx "image") [] [] (tx u) none none .nil

/-- An inline container node with the given children. -/
def inl (f : MdForest) : MdNode := .mk (tx "inline") [] [] [] none none f

/-- A paragraph node with the given children. -/
def parWith (f : MdForest) : MdNode := .mk (tx "paragraph") [] [] [] none none f

/-- The parse of the document `"# A\npara"`. -/
def treeA : List MdNode := [hdg "#" "# A\n", par "para\n"]

/-- The raw text of the document `"# A\npara"`. -/
def docA : Tx := tx "# A\npara"

/-- The parse of a document with no level-1 heading but one level-2
heading: `"pre\n\n## B\n\npost"`. -/
def treeNoTop : List MdNode := [par "pre\n", hdg "##" "## B\n", par "post\n"]

/-- The parse of a document with an image embedded inside a paragraph under
a heading (the paragraph's rendered text does not matter: the node is
excluded from the text body because its subtree contains the image). -/
def treeImgPara : List MdNode :=
  [hdg "#" "# A\n", parWith (.cons (inl (.cons (img "http://i/1.png") .nil)) .nil)]

/-- A document consisting of a single image whose `src` attribute is a
single space (reachable through an angle-bracketed link destination). -/
def treeWsImg : List MdNode := [.mk (tx "image") [] [] (tx " ") none none .nil]

/-- A configuration with `add_start_index` disabled. -/
def cfgPlain : SplitCfg :=
  { chunkSize := 512, chunkOverlap := 51, addStartIndex := false, seps := [tx "\n\n"] }

/-- A configuration with `add_start_index` enabled. -/
def cfgIndexed : SplitCfg :=
  { chunkSize := 512, chunkOverlap := 51, addStartIndex := true, seps := [tx "\n\n"] }

theorem mget_append (m1 m2 : Meta) (k : Tx) :
    mget (m1 ++ m2) k =
      match mget m2 k with
      | some w => some w
      | none => mget m1 k := by
  induction m1 with
  | nil =>
    cases h : mget m2 k <;> simp [mget, h]
  | cons e m1 ih =>
    have hdef : mget ((e :: m1) ++ m2) k =
        match mget (m1 ++ m2) k with
        | some w => some w
        | none => if e.1 == k then some e.2 else none := rfl
    rw [hdef, ih]
    cases h : mget m2 k <;> simp [mget, h]

theorem mget_append_right {m2 : Meta} {k : Tx} {v : MVal} (m1 : Meta)
    (h : mget m2 k = some v) : mget (m1 ++ m2) k = some v := by
  rw [mget_append, h]

theorem mget_append_left {m2 : Meta} {k : Tx} (m1 : Meta)
    (h : mget m2 k = none) : mget (m1 ++ m2) k = mget m1 k := by
  rw [mget_append, h]

theorem mget_cons_ne {e : Tx × MVal} {k : Tx} (m : Meta) (h : (e.1 == k) = false) :
    mget (e :: m) k = mget m k := by
  cases hm : mget m k <;> simp [mget, hm, h]

theorem pyStrip_length_le (s : Tx) : (pyStrip s).length ≤ s.length := by
  have h1 : ∀ t : Tx, (t.dropWhile isWs).length ≤ t.length := by
    intro t
    exact (List.dropWhile_sublist isWs).length_le
  calc (pyStrip s).length
      = (((s.dropWhile isWs).reverse).dropWhile isWs).length := by
        simp [pyStrip]
    _ ≤ ((s.dropWhile isWs).reverse).length := h1 _
    _ = (s.dropWhile isWs).length := by simp
    _ ≤ s.length := h1 _

theorem findSub_some_spec (sep : Tx) :
    ∀ (s : Tx) (i : Nat), findSub sep s = some i →
      sep <+: s.drop i ∧ ∀ j, j < i → ¬ sep <+: s.drop j := by
  intro s
  induction s with
  | nil =>
    intro i h
    simp only [findSub] at h
    split at h
    · next hp =>
      cases h
      exact ⟨by simpa using hp, fun j hj => by omega⟩
    · cases h
  | cons c rest ih =>
    intro i h
    simp only [findSub] at h
    split at h
    · next hp =>
      cases h
      exact ⟨by simpa using hp, fun j hj => by omega⟩
    · next hp =>
      cases hfr : findSub sep rest with
      | none => rw [hfr] at h; cases h
      | some i' =>
        rw [hfr] at h
        have hii : i' + 1 = i := by simpa using h
        subst hii
        obtain ⟨h1, h2⟩ := ih i' hfr
        refine ⟨by simpa using h1, ?_⟩
        intro j hj hpre
        cases j with
        | zero =>
          exact hp (by simpa using hpre)
        | succ j' =>
          exact h2 j' (by omega) (by simpa using hpre)

theorem findSub_none_spec (sep : Tx) :
    ∀ (s : Tx), findSub sep s = none → ∀ j, ¬ sep <+: s.drop j := by
  intro s
  induction s with
  | nil =>
    intro h j hpre
    simp only [findSub] at h
    split at h
    · cases h
    · next hp =>
      have : sep = [] := by simpa using hpre
      exact hp (by simp [this])
  | cons c rest ih =>
    intro h j hpre
    simp only [findSub] at h
    split at h
    · cases h
    · next hp =>
      cases hfr : findSub sep rest with
      | some i' => rw [hfr] at h; cases h
      | none =>
        cases j with
        | zero => exact hp (by simpa using hpre)
        | succ j' => exact ih hfr j' (by simpa using hpre)

theorem occursIn_of_prefix_drop {sep s : Tx} (j : Nat) (h : sep <+: s.drop j) :
    occursIn sep s = true := by
  cases hfs : findSub sep s with
  | none => exact absurd h (findSub_none_spec sep s hfs j)
  | some i => rw [occursIn, hfs]; rfl

theorem infix_occursIn {sep s : Tx} (h : sep <:+: s) : occursIn sep s = true := by
  obtain ⟨a, b, hab⟩ := h
  apply occursIn_of_prefix_drop a.length
  have : (a ++ sep ++ b).drop a.length = sep ++ b := by
    rw [List.append_assoc]
    exact List.drop_left a (sep ++ b)
  rw [← hab, this]
  exact List.prefix_append sep b

theorem occursIn_substring {sep p : Tx} (h : occursIn sep p = true) : sep <:+: p := by
  cases hfs : findSub sep p with
  | none => rw [occursIn, hfs] at h; cases h
  | some i =>
    have h1 := (findSub_some_spec sep p i hfs).1
    exact List.infix_iff_prefix_suffix.mpr ⟨p.drop i, h1, List.drop_suffix i p⟩

theorem occursIn_of_substring {sep p s : Tx} (hinf : p <:+: s)
    (h : occursIn sep p = true) : occursIn sep s = true :=
  infix_occursIn ((occursIn_substring h).trans hinf)

theorem occursIn_nil_left (s : Tx) : occursIn [] s = true := by
  apply occursIn_of_prefix_drop 0
  exact List.nil_prefix

theorem sdGo_infix (sep : Tx) :
    ∀ (fuel : Nat) (s p : Tx), p ∈ sdGo sep fuel s → p <:+: s := by
  intro fuel
  induction fuel with
  | zero =>
    intro s p hp
    simp only [sdGo, List.mem_singleton] at hp
    subst hp
    exact List.infix_refl _
  | succ fuel ih =>
    intro s p hp
    simp only [sdGo] at hp
    cases hfs : findSub sep s with
    | none =>
      rw [hfs] at hp
      simp only [List.mem_singleton] at hp
      subst hp
      exact List.infix_refl _
    | some i =>
      rw [hfs] at hp
      simp only [List.mem_cons] at hp
      rcases hp with hp | hp
      · subst hp
        exact ⟨[], s.drop i, by simp⟩
      · exact (ih (s.drop (i + sep.length)) p hp).trans (List.drop_suffix _ s).isInfix

theorem sdGo_not_occurs {sep : Tx} (hsep : sep ≠ []) :
    ∀ (fuel : Nat) (s : Tx), s.length < fuel →
      ∀ p ∈ sdGo sep fuel s, occursIn sep p = false := by
  intro fuel
  induction fuel with
  | zero =>
    intro s hlen p hp
    omega
  | succ fuel ih =>
    intro s hlen p hp
    simp only [sdGo] at hp
    cases hfs : findSub sep s with
    | none =>
      rw [hfs] at hp
      simp only [List.mem_singleton] at hp
      subst hp
      rw [occursIn, hfs]
      rfl
    | some i =>
      rw [hfs] at hp
      simp only [List.mem_cons] at hp
      obtain ⟨hpre, hmin⟩ := findSub_some_spec sep s i hfs
      rcases hp with hp | hp
      · subst hp
        cases hfs2 : findSub sep (s.take i) with
        | none => rw [occursIn, hfs2]; rfl
        | some j =>
          exfalso
          have hj := (findSub_some_spec sep _ j hfs2).1
          by_cases hji : j < i
          · apply hmin j hji
            have hdt : (s.take i).drop j = (s.drop j).take (i - j) := List.drop_take i j s
            rw [hdt] at hj
            exact List.IsPrefix.trans hj ⟨(s.drop j).drop (i - j), List.take_append_drop _ _⟩
          · have hnil : (s.take i).drop j = [] := by
              apply List.drop_eq_nil_of_le
              have := List.length_take_le i s
              omega
            rw [hnil] at hj
            exact hsep (by simpa using hj)
      · have hsl : 0 < sep.length := List.length_pos.mpr hsep
        have hpl : sep.length ≤ (s.drop i).length := hpre.length_le
        rw [List.length_drop] at hpl
        apply ih (s.drop (i + sep.length)) _ p hp
        rw [List.length_drop]
        omega

theorem splitPieces_not_occurs {sep : Tx} (hsep : sep ≠ []) (s : Tx) :
    ∀ p ∈ splitPieces sep s, occursIn sep p = false := by
  intro p hp
  rw [splitPieces, if_neg hsep] at hp
  exact sdGo_not_occurs hsep (s.length + 1) s (by omega) p (List.mem_filter.mp hp).1

theorem splitPieces_infix (sep s : Tx) : ∀ p ∈ splitPieces sep s, p <:+: s := by
  intro p hp
  rw [splitPieces] at hp
  split at hp
  · simp only [List.mem_map] at hp
    obtain ⟨c, hc, hpc⟩ := hp
    subst hpc
    obtain ⟨l1, l2, h12⟩ := List.mem_iff_append.mp hc
    exact ⟨l1, l2, by rw [h12]; simp⟩
  · exact sdGo_infix sep (s.length + 1) s p (List.mem_filter.mp hp).1

theorem splitPieces_len_one {s : Tx} : ∀ p ∈ splitPieces [] s, p.length = 1 := by
  intro p hp
  rw [splitPieces, if_pos rfl] at hp
  simp only [List.mem_map] at hp
  obtain ⟨c, _, hpc⟩ := hp
  subst hpc
  rfl

theorem splitPieces_nil (sep : Tx) : splitPieces sep [] = [] := by
  rw [splitPieces]
  split
  · rfl
  · next hsep =>
    have hfs : findSub sep ([] : Tx) = none := by
      have : sep.isPrefixOf ([] : Tx) = false := by
        cases hb : sep.isPrefixOf ([] : Tx) with
        | false => rfl
        | true => exact absurd (by simpa using hb) hsep
      simp [findSub, this]
    simp [sdGo, hfs]

theorem splitRecS_infix (cs : Nat) :
    ∀ (seps : List Tx) (s p : Tx), p ∈ splitRecS cs seps s → p <:+: s := by
  intro seps
  induction seps with
  | nil =>
    intro s p hp
    simp only [splitRecS] at hp
    split at hp
    · cases hp
    · simp only [List.mem_singleton] at hp
      subst hp
      exact List.infix_refl _
  | cons sep rest ih =>
    intro s p hp
    simp only [splitRecS] at hp
    split at hp
    · simp only [List.mem_flatMap] at hp
      obtain ⟨q, hq, hpq⟩ := hp
      have hq_inf : q <:+: s := splitPieces_infix sep s q hq
      split at hpq
      · simp only [List.mem_singleton] at hpq
        subst hpq
        exact hq_inf
      · exact (ih q p hpq).trans hq_inf
    · exact ih s p hp

theorem splitRecS_bound {cs : Nat} (hcs : 1 ≤ cs) :
    ∀ (seps : List Tx) (s p : Tx), p ∈ splitRecS cs seps s →
      p.length ≤ cs ∨ ∀ sep ∈ seps, occursIn sep p = false := by
  intro seps
  induction seps with
  | nil =>
    intro s p hp
    simp only [splitRecS] at hp
    split at hp
    · cases hp
    · simp only [List.mem_singleton] at hp
      subst hp
      exact Or.inr (fun sep h => absurd h (List.not_mem_nil sep))
  | cons sep rest ih =>
    intro s p hp
    simp only [splitRecS] at hp
    split at hp
    · next hocc =>
      simp only [List.mem_flatMap] at hp
      obtain ⟨q, hq, hpq⟩ := hp
      split at hpq
      · next hqcs =>
        simp only [List.mem_singleton] at hpq
        subst hpq
        exact Or.inl hqcs
      · next hqcs =>
        rcases ih q p hpq with hle | hrest
        · exact Or.inl hle
        · right
          intro sep' hsep'
          rcases List.mem_cons.mp hsep' with h | h
          · subst h
            by_cases hsepnil : sep' = []
            · subst hsepnil
              have := splitPieces_len_one q hq
              omega
            · have hqocc := splitPieces_not_occurs hsepnil s q hq
              have hpinf := splitRecS_infix cs rest q p hpq
              cases hpo : occursIn sep' p with
              | false => rfl
              | true => rw [occursIn_of_substring hpinf hpo] at hqocc; cases hqocc
          · exact hrest sep' h
    · next hocc =>
      rcases ih s p hp with hle | hrest
      · exact Or.inl hle
      · right
        intro sep' hsep'
        rcases List.mem_cons.mp hsep' with h | h
        · subst h
          have hpinf := splitRecS_infix cs rest s p hp
          cases hpo : occursIn sep' p with
          | false => rfl
          | true =>
            exact absurd (occursIn_of_substring hpinf hpo) hocc
        · exact hrest sep' h

theorem splitRecS_nil (cs : Nat) : ∀ seps : List Tx, splitRecS cs seps [] = [] := by
  intro seps
  induction seps with
  | nil => simp [splitRecS]
  | cons sep rest ih =>
    simp only [splitRecS]
    split
    · rw [splitPieces_nil]
      rfl
    · exact ih

theorem flushDoc_len (buf : Tx) : ∀ q ∈ flushDoc buf, q.length ≤ buf.length := by
  intro q hq
  simp only [flushDoc] at hq
  split at hq
  · cases hq
  · simp only [List.mem_singleton] at hq
    subst hq
    exact pyStrip_length_le buf

theorem mergeGo_bound (cs : Nat) :
    ∀ (ps : List Tx) (buf : Tx), buf.length ≤ cs →
      ∀ q ∈ mergeGo cs buf ps, q.length ≤ cs ∨ q ∈ ps := by
  intro ps
  induction ps with
  | nil =>
    intro buf hbuf q hq
    simp only [mergeGo] at hq
    exact Or.inl (le_trans (flushDoc_len buf q hq) hbuf)
  | cons p ps ih =>
    intro buf hbuf q hq
    simp only [mergeGo] at hq
    split at hq
    · next hbig =>
      rcases List.mem_append.mp hq with h | h
      · exact Or.inl (le_trans (flushDoc_len buf q h) hbuf)
      · rcases List.mem_cons.mp h with h | h
        · subst h
          exact Or.inr (List.mem_cons_self q ps)
        · rcases ih [] (Nat.zero_le cs) q h with h1 | h1
          · exact Or.inl h1
          · exact Or.inr (List.mem_cons_of_mem p h1)
    · next hsmall =>
      split at hq
      · next hover =>
        rcases List.mem_append.mp hq with h | h
        · exact Or.inl (le_trans (flushDoc_len buf q h) hbuf)
        · rcases ih p (by omega) q h with h1 | h1
          · exact Or.inl h1
          · exact Or.inr (List.mem_cons_of_mem p h1)
      · next hfit =>
        rcases ih (buf ++ p) (by omega) q hq with h1 | h1
        · exact Or.inl h1
        · exact Or.inr (List.mem_cons_of_mem p h1)

theorem boundedSplit_bound {cs : Nat} (hcs : 1 ≤ cs) (seps : List Tx) (s : Tx) :
    ∀ q ∈ boundedSplit cs seps s,
      q.length ≤ cs ∨ ∀ sep ∈ seps, occursIn sep q = false := by
  intro q hq
  rcases mergeGo_bound cs (splitRecS cs seps s) [] (Nat.zero_le cs) q hq with h | h
  · exact Or.inl h
  · exact splitRecS_bound hcs seps s q h

theorem boundedSplit_nil (cs : Nat) (seps : List Tx) : boundedSplit cs seps [] = [] := by
  rw [boundedSplit, splitRecS_nil]
  simp [mergeGo, flushDoc, pyStrip]

mutual

theorem getNontextContent_shape : ∀ (n : MdNode) (title : Tx) (sec : Sec),
    sec ∈ getNontextContent n title →
      (sec.kind = tx "table" ∧ sec.smeta = []) ∨
      (sec.kind = tx "image" ∧ ∃ u, sec.smeta = [(tx "image_url", .s u)])
  | .mk t m r s ht hi cs, title, sec, hsec => by
    rw [getNontextContent.eq_def] at hsec
    dsimp only at hsec
    split at hsec
    · simp only [List.mem_singleton] at hsec
      subst hsec
      exact Or.inr ⟨rfl, s, rfl⟩
    · split at hsec
      · simp only [List.mem_singleton] at hsec
        subst hsec
        exact Or.inl ⟨rfl, rfl⟩
      · split at hsec
        · rcases List.mem_append.mp hsec with h | h
          · cases ht with
            | none => cases h
            | some tb =>
              simp only [List.mem_singleton] at h
              subst h
              exact Or.inl ⟨rfl, rfl⟩
          · cases hi with
            | none => cases h
            | some p =>
              cases p with
              | mk pi ps =>
                simp only [List.mem_singleton] at h
                subst h
                exact Or.inr ⟨rfl, ps, rfl⟩
        · exact getNontextChildren_shape cs title sec hsec

theorem getNontextChildren_shape : ∀ (f : MdForest) (title : Tx) (sec : Sec),
    sec ∈ getNontextChildren f title →
      (sec.kind = tx "table" ∧ sec.smeta = []) ∨
      (sec.kind = tx "image" ∧ ∃ u, sec.smeta = [(tx "image_url", .s u)])
  | .nil, title, sec, hsec => by
    rw [getNontextChildren.eq_def] at hsec
    dsimp only at hsec
    cases hsec
  | .cons c f, title, sec, hsec => by
    rw [getNontextChildren.eq_def] at hsec
    dsimp only at hsec
    rcases List.mem_append.mp hsec with h | h
    · split at h
      · exact getNontextContent_shape c title sec h
      · cases h
    · exact getNontextChildren_shape f title sec h

end

mutual

/-- Every non-text unit yielded by `_get_nontext_content` carries the title it
was called with. -/
theorem getNontextContent_title : ∀ (n : MdNode) (title : Tx) (sec : Sec),
    sec ∈ getNontextContent n title → sec.title = title
  | .mk t m r s ht hi cs, title, sec, hsec => by
    rw [getNontextContent.eq_def] at hsec
    dsimp only at hsec
    split at hsec
    · simp only [List.mem_singleton] at hsec
      subst hsec
      rfl
    · split at hsec
      · simp only [List.mem_singleton] at hsec
        subst hsec
        rfl
      · split at hsec
        · rcases List.mem_append.mp hsec with h | h
          · cases ht with
            | none => cases h
            | some tb =>
              simp only [List.mem_singleton] at h
              subst h
              rfl
          · cases hi with
            | none => cases h
            | some p =>
              cases p with
              | mk pi ps =>
                simp only [List.mem_singleton] at h
                subst h
                rfl
        · exact getNontextChildren_title cs title sec hsec

/-- The forest companion of `getNontextContent_title`. -/
theorem getNontextChildren_title : ∀ (f : MdForest) (title : Tx) (sec : Sec),
    sec ∈ getNontextChildren f title → sec.title = title
  | .nil, title, sec, hsec => by
    rw [getNontextChildren.eq_def] at hsec
    dsimp only at hsec
    cases hsec
  | .cons c f, title, sec, hsec => by
    rw [getNontextChildren.eq_def] at hsec
    dsimp only at hsec
    rcases List.mem_append.mp hsec with h | h
    · split at h
      · exact getNontextContent_title c title sec h
      · cases h
    · exact getNontextChildren_title f title sec h

end

theorem sbhGo_shape : ∀ (fuel : Nat) (nodes : List MdNode) (mk : Tx) (pt : Option Tx)
    (sec : Sec), sec ∈ sbhGo fuel nodes mk pt →
      (sec.kind = tx "text" ∧ sec.smeta = []) ∨
      (sec.kind = tx "table" ∧ sec.smeta = []) ∨
      (sec.kind = tx "image" ∧ ∃ u, sec.smeta = [(tx "image_url", .s u)]) := by
  intro fuel
  induction fuel with
  | zero =>
    intro nodes mk pt sec hsec
    simp [sbhGo] at hsec
  | succ fuel ih =>
    intro nodes mk pt sec hsec
    simp only [sbhGo, List.mem_flatMap] at hsec
    obtain ⟨run, hrun, hsec⟩ := hsec
    cases run with
    | nil => simp [sbhRun] at hsec
    | cons first rest =>
      simp only [sbhRun] at hsec
      split at hsec
      · exact ih rest _ _ sec hsec
      · rcases List.mem_cons.mp hsec with h | h
        · subst h
          exact Or.inl ⟨rfl, rfl⟩
        · rw [getNodesNontextContents] at h
          simp only [List.mem_flatMap] at h
          obtain ⟨n, hn, hu⟩ := h
          split at hu
          · exact Or.inr (getNontextContent_shape n _ sec hu)
          · cases hu

theorem splitByHeader_shape {nodes : List MdNode} {mk : Tx} {pt : Option Tx} {sec : Sec}
    (h : sec ∈ splitByHeader nodes mk pt) :
    (sec.kind = tx "text" ∧ sec.smeta = []) ∨
    (sec.kind = tx "table" ∧ sec.smeta = []) ∨
    (sec.kind = tx "image" ∧ ∃ u, sec.smeta = [(tx "image_url", .s u)]) :=
  sbhGo_shape (nodes.length + 1) nodes mk pt sec h

theorem split_text_chunk {cfg : SplitCfg} {tree : List MdNode} {metadata : Meta}
    {c : Tx} {md : Meta} (h : (c, md) ∈ split_text cfg tree metadata) :
    ∃ sec ∈ splitByHeader tree (tx "#") none,
      md = [(tx "title", .s sec.title), (tx "type", .s sec.kind)] ++ sec.smeta ++ metadata ∧
      sec.body ≠ [] ∧
      (((sec.kind = tx "image" ∨ sec.kind = tx "table") ∧ c = sec.body) ∨
       (sec.kind = tx "text" ∧ c ∈ boundedSplit cfg.chunkSize cfg.seps (pyStrip sec.body))) := by
  rw [split_text] at h
  simp only [List.mem_flatMap] at h
  obtain ⟨sec, hsec, hmem⟩ := h
  refine ⟨sec, hsec, ?_⟩
  rw [processSection] at hmem
  split at hmem
  · cases hmem
  · next hbody =>
    split at hmem
    · next hkind =>
      simp only [List.mem_singleton, Prod.mk.injEq] at hmem
      obtain ⟨hc, hmd⟩ := hmem
      refine ⟨hmd, hbody, Or.inl ⟨?_, hc⟩⟩
      rcases Bool.or_eq_true_iff.mp hkind with h | h
      · exact Or.inl (by simpa using h)
      · exact Or.inr (by simpa using h)
    · split at hmem
      · next hkind =>
        simp only [List.mem_map, Prod.mk.injEq] at hmem
        obtain ⟨q, hq, hcq, hmd⟩ := hmem
        refine ⟨hmd.symm, hbody, Or.inr ⟨by simpa using hkind, ?_⟩⟩
        rw [hcq] at hq
        exact hq
      · cases hmem

theorem processSection_empty_body {cfg : SplitCfg} {metadata : Meta} {t k : Tx} {m : Meta} :
    processSection cfg metadata { title := t, body := [], kind := k, smeta := m } = [] := by
  rw [processSection]
  rfl

theorem processSection_trim_empty {cfg : SplitCfg} {metadata : Meta} {sec : Sec}
    (hk : sec.kind = tx "text") (ht : pyStrip sec.body = []) :
    processSection cfg metadata sec = [] := by
  rw [processSection]
  by_cases hb : sec.body = []
  · rw [if_pos hb]
  · rw [if_neg hb]
    have h1 : (sec.kind == tx "image" || sec.kind == tx "table") = false := by
      rw [hk]
      decide
    rw [h1]
    have h2 : (sec.kind == tx "text") = true := by
      rw [hk]
      decide
    rw [h2]
    simp only [if_false, if_true, Bool.false_eq_true, ht, boundedSplit_nil, List.map_nil]

theorem mget_one (k1 k : Tx) (v : MVal) :
    mget [(k1, v)] k = if k1 == k then some v else none := rfl

theorem mget_two (k1 k2 k : Tx) (v1 v2 : MVal) :
    mget [(k1, v1), (k2, v2)] k =
      if k2 == k then some v2 else if k1 == k then some v1 else none := by
  cases h2 : k2 == k <;> cases h1 : k1 == k <;> simp [mget, h1, h2]

theorem pyFind_spec (s sub : Tx) (st : Nat) :
    pyFind s sub st = -1 ∨
      (0 ≤ pyFind s sub st ∧
        (s.drop (pyFind s sub st).toNat).take sub.length = sub) := by
  rw [pyFind]
  split
  · exact Or.inl rfl
  · cases hfs : findSub sub (s.drop st) with
    | none => exact Or.inl rfl
    | some i =>
      right
      constructor
      · exact Int.ofNat_nonneg (st + i)
      · have hp := (findSub_some_spec sub (s.drop st) i hfs).1
        rw [List.drop_drop] at hp
        have htn : ((st + i : Nat) : Int).toNat = st + i := by omega
        simp only [htn]
        obtain ⟨t, ht⟩ := hp
        rw [← ht]
        exact List.take_left sub t

theorem processDoc_start_index {cfg : SplitCfg} (hasi : cfg.addStartIndex = true) (text : Tx) :
    ∀ (chunks : List (Tx × Meta)) (i0 : Int) (p0 : Nat),
      ∀ cm ∈ processDoc cfg text i0 p0 chunks,
        (mget cm.2 (tx "type") = some (.s (tx "image")) ∨
         mget cm.2 (tx "type") = some (.s (tx "table"))) ∨
        ∃ v : Int, mget cm.2 (tx "start_index") = some (.i v) ∧
          (0 ≤ v → (text.drop v.toNat).take cm.1.length = cm.1) := by
  intro chunks
  induction chunks with
  | nil =>
    intro i0 p0 cm hcm
    simp [processDoc] at hcm
  | cons ch rest ih =>
    intro i0 p0 cm hcm
    obtain ⟨c, md⟩ := ch
    simp only [processDoc] at hcm
    split at hcm
    · next htype =>
      rcases List.mem_cons.mp hcm with h | h
      · subst h
        exact Or.inl htype
      · exact ih _ _ cm h
    · next htype =>
      rcases List.mem_cons.mp hcm with h | h
      · subst h
        right
        refine ⟨pyFind text c (max 0 (i0 + (p0 : Int) - (cfg.chunkOverlap : Int))).toNat,
          ?_, ?_⟩
        · apply mget_append_right
          rw [mget_one]
          rw [if_pos (by decide)]
        · intro hv
          rcases pyFind_spec text c (max 0 (i0 + (p0 : Int) - (cfg.chunkOverlap : Int))).toNat
            with hneg | ⟨_, hocc⟩
          · rw [hneg] at hv
            exact absurd hv (by decide)
          · exact hocc
      · exact ih _ _ cm h

theorem mget_append_start_entry (md : Meta) (v : MVal) (k : Tx)
    (hk : ((tx "start_index") == k) = false) :
    mget (md ++ [(tx "start_index", v)]) k = mget md k := by
  apply mget_append_left
  rw [mget_one, hk]
  rfl

theorem split_text_label {cfg : SplitCfg} {tree : List MdNode} {metadata : Meta}
    {c : Tx} {md : Meta} (h : (c, md) ∈ split_text cfg tree metadata)
    (hty : mget metadata (tx "type") = none) :
    ∃ sec ∈ splitByHeader tree (tx "#") none,
      mget md (tx "type") = some (MVal.s sec.kind) ∧
      md = [(tx "title", MVal.s sec.title), (tx "type", MVal.s sec.kind)]
        ++ sec.smeta ++ metadata ∧
      (((sec.kind = tx "image" ∨ sec.kind = tx "table") ∧ c = sec.body) ∨
       (sec.kind = tx "text" ∧ c ∈ boundedSplit cfg.chunkSize cfg.seps (pyStrip sec.body))) := by
  obtain ⟨sec, hsec, hmd, _, hkind⟩ := split_text_chunk h
  have hsmeta : mget sec.smeta (tx "type") = none := by
    rcases splitByHeader_shape hsec with ⟨_, hm⟩ | ⟨_, hm⟩ | ⟨_, u, hm⟩
    · rw [hm]; rfl
    · rw [hm]; rfl
    · rw [hm, mget_one]; rfl
  refine ⟨sec, hsec, ?_, hmd, hkind⟩
  rw [hmd]
  rw [mget_append_left _ hty, mget_append_left _ hsmeta, mget_two]
  rfl

theorem split_text_start_none {cfg : SplitCfg} {tree : List MdNode} {metadata : Meta}
    {c : Tx} {md : Meta} (h : (c, md) ∈ split_text cfg tree metadata)
    (hst : mget metadata (tx "start_index") = none) :
    mget md (tx "start_index") = none := by
  obtain ⟨sec, hsec, hmd, _, _⟩ := split_text_chunk h
  have hsmeta : mget sec.smeta (tx "start_index") = none := by
    rcases splitByHeader_shape hsec with ⟨_, hm⟩ | ⟨_, hm⟩ | ⟨_, u, hm⟩
    · rw [hm]; rfl
    · rw [hm]; rfl
    · rw [hm, mget_one]; rfl
  rw [hmd]
  rw [mget_append_left _ hst, mget_append_left _ hsmeta, mget_two]
  rfl

theorem split_text_image_url {cfg : SplitCfg} {tree : List MdNode} {metadata : Meta}
    {c : Tx} {md : Meta} (h : (c, md) ∈ split_text cfg tree metadata)
    (hty : mget metadata (tx "type") = none)
    (hiu : mget metadata (tx "image_url") = none)
    (him : mget md (tx "type") = some (MVal.s (tx "image"))) :
    ∃ u, mget md (tx "image_url") = some (MVal.s u) := by
  obtain ⟨sec, hsec, hlabel, hmd, _⟩ := split_text_label h hty
  rw [him] at hlabel
  have hksec : sec.kind = tx "image" := (MVal.s.inj (Option.some.inj hlabel)).symm
  rcases splitByHeader_shape hsec with ⟨hk, _⟩ | ⟨hk, _⟩ | ⟨_, u, hm⟩
  · rw [hksec] at hk
    exact absurd hk (by decide)
  · rw [hksec] at hk
    exact absurd hk (by decide)
  · refine ⟨u, ?_⟩
    rw [hmd]
    rw [mget_append_left _ hiu]
    apply mget_append_right
    rw [hm]
    rfl

theorem processDoc_passthrough {cfg : SplitCfg} (text : Tx) :
    ∀ (chunks : List (Tx × Meta)) (i0 : Int) (p0 : Nat),
      ∀ cm ∈ processDoc cfg text i0 p0 chunks,
        (mget cm.2 (tx "type") = some (MVal.s (tx "image")) ∨
         mget cm.2 (tx "type") = some (MVal.s (tx "table"))) →
        cm ∈ chunks := by
  intro chunks
  induction chunks with
  | nil =>
    intro i0 p0 cm hcm
    simp [processDoc] at hcm
  | cons ch rest ih =>
    intro i0 p0 cm hcm hlabel
    obtain ⟨c, md⟩ := ch
    simp only [processDoc] at hcm
    split at hcm
    · rcases List.mem_cons.mp hcm with h | h
      · exact h ▸ List.mem_cons_self _ _
      · exact List.mem_cons_of_mem _ (ih _ _ cm h hlabel)
    · next htype =>
      split at hcm
      · rcases List.mem_cons.mp hcm with h | h
        · exfalso
          apply htype
          have hlift : mget cm.2 (tx "type") = mget md (tx "type") := by
            rw [h]
            exact mget_append_start_entry md _ _ (by decide)
          rw [hlift] at hlabel
          exact hlabel
        · exact List.mem_cons_of_mem _ (ih _ _ cm h hlabel)
      · rcases List.mem_cons.mp hcm with h | h
        · exact h ▸ List.mem_cons_self _ _
        · exact List.mem_cons_of_mem _ (ih _ _ cm h hlabel)

theorem metaAt_prop {metadatas : List Meta} {P : Meta → Prop}
    (hall : ∀ m ∈ metadatas, P m) (hnil : P []) (i : Nat) : P (metaAt metadatas i) := by
  rw [metaAt]
  split
  · exact hnil
  · next hne =>
    have hlen : 0 < metadatas.length := by
      cases metadatas with
      | nil => simp at hne
      | cons a l => simp
    have hidx : i % metadatas.length < metadatas.length := Nat.mod_lt i hlen
    have hget : metadatas.getD (i % metadatas.length) [] = metadatas[i % metadatas.length] := by
      rw [List.getD_eq_getElem?_getD, List.getElem?_eq_getElem hidx]
      rfl
    rw [hget]
    exact hall _ (List.getElem_mem hidx)

theorem storeExtends_refl (st : Store) : StoreExtends st st :=
  ⟨le_refl _, fun _ _ => rfl⟩

theorem storeExtends_trans {s1 s2 s3 : Store}
    (h12 : StoreExtends s1 s2) (h23 : StoreExtends s2 s3) : StoreExtends s1 s3 := by
  refine ⟨le_trans h12.1 h23.1, fun r hr => ?_⟩
  rw [h23.2 r (lt_of_lt_of_le hr h12.1), h12.2 r hr]

theorem alloc_extends (st : Store) (m : Meta) : StoreExtends st (alloc st m).1 := by
  refine ⟨by simp [alloc], fun r hr => ?_⟩
  show readRef (st ++ [m]) r = readRef st r
  rw [readRef, readRef, List.getD_eq_getElem?_getD, List.getD_eq_getElem?_getD,
    List.getElem?_append_left hr]

theorem writeKey_extends {st st' : Store} (h : StoreExtends st st') {r2 : Nat}
    (hr2 : st.length ≤ r2) (k : Tx) (v : MVal) :
    StoreExtends st (writeKey st' r2 k v) := by
  refine ⟨?_, fun r hr => ?_⟩
  · rw [writeKey]
    simpa using h.1
  · rw [writeKey, readRef, List.getD_eq_getElem?_getD,
      List.getElem?_set_ne (by omega : r2 ≠ r), ← List.getD_eq_getElem?_getD]
    exact h.2 r hr

theorem processDocSt_extends (cfg : SplitCfg) (text : Tx) (cpy : Nat) :
    ∀ (chunks : List (Tx × Meta)) (i0 : Int) (p0 : Nat) (st : Store),
      StoreExtends st (processDocSt cfg text cpy i0 p0 chunks st).1 := by
  intro chunks
  induction chunks with
  | nil =>
    intro i0 p0 st
    exact storeExtends_refl st
  | cons ch rest ih =>
    intro i0 p0 st
    obtain ⟨c, pre⟩ := ch
    simp only [processDocSt]
    split
    · exact storeExtends_trans (alloc_extends st _) (ih _ _ _)
    · split
      · exact storeExtends_trans
          (writeKey_extends (alloc_extends st _) (le_of_eq rfl) _ _) (ih _ _ _)
      · exact storeExtends_trans (alloc_extends st _) (ih _ _ _)

theorem cdStepSt_extends (cfg : SplitCfg) (metaRefs : List Nat)
    (acc : Store × List (Tx × Nat)) (d : Nat × (Tx × List MdNode)) :
    StoreExtends acc.1 (cdStepSt cfg metaRefs acc d).1 := by
  simp only [cdStepSt]
  exact storeExtends_trans (alloc_extends acc.1 _) (processDocSt_extends _ _ _ _ _ _ _)

theorem foldl_cdStepSt_extends (cfg : SplitCfg) (metaRefs : List Nat) :
    ∀ (l : List (Nat × (Tx × List MdNode))) (acc : Store × List (Tx × Nat)),
      StoreExtends acc.1 (l.foldl (cdStepSt cfg metaRefs) acc).1 := by
  intro l
  induction l with
  | nil =>
    intro acc
    exact storeExtends_refl _
  | cons d l ihl =>
    intro acc
    rw [List.foldl_cons]
    exact storeExtends_trans (cdStepSt_extends cfg metaRefs acc d) (ihl _)

/-- C1 counterexample: the claim says document-generated keys take
precedence on collision, so with a caller-supplied `title` the chunk's
title should still be the document-generated `"# A"`.  In fact the dict
literal in `split_text` spreads the caller metadata last, so the caller's
`"X"` wins: the only chunk's `title` reads `"X"`, not `"# A"`. -/
theorem C1_counterexample :
    (split_text cfgPlain treeA [(tx "title", MVal.s (tx "X"))]).map
        (fun cm => mget cm.2 (tx "title")) = [some (MVal.s (tx "X"))] ∧
    tx "X" ≠ tx "# A" := by
  constructor
  · decide
  · decide

/-- C1 (amended): on key collision the CALLER-supplied base-metadata value
takes precedence over the document-generated keys (`title`, `type`,
`image_url`) in the chunk metadata produced by `split_text`, because the
caller metadata is spread last in the dict literal; the only
document-generated key that overrides the caller is `start_index`, which
`create_documents` assigns after the merge on text chunks when
`add_start_index` is enabled (second conjunct: a caller-supplied
`start_index` of 99 is overwritten with the computed offset 4). -/
theorem C1_caller_precedence :
    (∀ (cfg : SplitCfg) (tree : List MdNode) (metadata : Meta) (c : Tx) (md : Meta),
      (c, md) ∈ split_text cfg tree metadata →
      ∀ (k : Tx) (v : MVal), mget metadata k = some v → mget md k = some v) ∧
    (create_documents cfgIndexed [(docA, treeA)] [[(tx "start_index", MVal.i 99)]]).map
        (fun cm => mget cm.2 (tx "start_index")) = [some (MVal.i 4)] := by
  constructor
  · intro cfg tree metadata c md h k v hv
    obtain ⟨sec, hsec, hmd, _, _⟩ := split_text_chunk h
    rw [hmd]
    exact mget_append_right _ hv
  · decide

/-- C1 witness: a concrete caller key `extra` survives into the chunk
metadata of the single chunk of `"# A\npara"`. -/
theorem C1_caller_precedence_witness :
    ((tx "para", [(tx "title", MVal.s (tx "# A")), (tx "type", MVal.s (tx "text")),
        (tx "extra", MVal.s (tx "E"))]) ∈
      split_text cfgPlain treeA [(tx "extra", MVal.s (tx "E"))] ∧
      mget [(tx "extra", MVal.s (tx "E"))] (tx "extra") = some (MVal.s (tx "E"))) ∧
    mget [(tx "title", MVal.s (tx "# A")), (tx "type", MVal.s (tx "text")),
      (tx "extra", MVal.s (tx "E"))] (tx "extra") = some (MVal.s (tx "E")) :=
  ⟨⟨by decide, by decide⟩,
    C1_caller_precedence.1 cfgPlain treeA [(tx "extra", MVal.s (tx "E"))] (tx "para")
      [(tx "title", MVal.s (tx "# A")), (tx "type", MVal.s (tx "text")),
        (tx "extra", MVal.s (tx "E"))] (by decide) (tx "extra") (MVal.s (tx "E"))
      (by decide)⟩

/-- C2 counterexample: the claim says a document with no level-1 heading
but one level-2 heading produces TWO sections — an empty-titled one for the
content before the heading and one titled by the level-2 heading's text for
the content after it.  In fact `_split_by_header` never recurses when a run
does not start with a heading at the current markup level, so the whole
document becomes ONE text section with the empty title, the rendered
level-2 heading included in its body; no section titled by the heading
exists. -/
theorem C2_counterexample :
    splitByHeader treeNoTop (tx "#") none =
      [{ title := tx "", body := tx "pre\n## B\npost\n", kind := tx "text", smeta := [] }] := by
  decide

/-- C2 (amended): a document with no level-1 heading but one level-2
heading yields exactly one chunk, with the empty-string title, whose
content contains the pre-heading text, the rendered level-2 heading itself
and the post-heading text; the level-2 heading is never used as a title. -/
theorem C2_single_untitled_section :
    split_text cfgPlain treeNoTop [] =
      [(tx "pre\n## B\npost",
        [(tx "title", MVal.s (tx "")), (tx "type", MVal.s (tx "text"))])] := by
  decide

/-- C3: `get_language` has NO exception handler around the external
detector call, so a detector failure propagates to the caller instead of
being caught and mapped to EN — contradicting both the claim and the
function's own docstring ("Raises: None: 此函数不抛出任何异常").  The first
conjunct evaluates the function at a failing detector; the second confirms
the true half of the claim (a tag outside EN/ZH maps to EN). -/
theorem C3_detector_error_propagates :
    get_language (fun _ => Except.error (tx "boom")) (tx "hello") =
      Except.error (tx "boom") ∧
    get_language (fun _ => Except.ok (tx "FR")) (tx "bonjour") = Except.ok (tx "EN") :=
  ⟨rfl, rfl⟩

/-- C4 counterexample: the claim says `start_index` is the offset of the
chunk within 'the original section body it was split from'.  For the
document `"# A\npara"` the chunk `"para"` sits at offset 0 of its section
body `"para\n"`, but the code searches the FULL document text and records
offset 4. -/
theorem C4_counterexample :
    (create_documents cfgIndexed [(docA, treeA)] []).map
        (fun cm => (cm.1, mget cm.2 (tx "start_index"))) =
      [(tx "para", some (MVal.i 4))] ∧
    findSub (tx "para") (pyStrip (tx "para\n")) = some 0 ∧ (4 : Int) ≠ 0 := by
  refine ⟨by decide, by decide, by decide⟩

/-- C4 (amended): when `add_start_index` is enabled, every chunk that is
not labelled image/table gets a `start_index` computed by searching the
FULL original document text (Python `str.find` from the clamped offset
`max(0, previous_index + previous_chunk_len - chunk_overlap)`), not the
section body; whenever the recorded index is non-negative the chunk's
content occurs at that offset in the document, and the index is `-1` when
the content does not occur at all. -/
theorem C4_document_offsets :
    ∀ (cfg : SplitCfg), cfg.addStartIndex = true →
    ∀ (docs : List (Tx × List MdNode)) (metadatas : List Meta) (cm : Tx × Meta),
      cm ∈ create_documents cfg docs metadatas →
      (mget cm.2 (tx "type") = some (MVal.s (tx "image")) ∨
       mget cm.2 (tx "type") = some (MVal.s (tx "table"))) ∨
      ∃ d ∈ docs, ∃ v : Int,
        mget cm.2 (tx "start_index") = some (MVal.i v) ∧
        (0 ≤ v → (d.1.drop v.toNat).take cm.1.length = cm.1) := by
  intro cfg hasi docs metadatas cm hcm
  rw [create_documents] at hcm
  simp only [List.mem_flatMap] at hcm
  obtain ⟨d, hd, hcm⟩ := hcm
  have hdd : d.2 ∈ docs := by
    have hq := List.mem_enum_iff_getElem?.mp hd
    exact List.getElem?_mem hq
  rcases processDoc_start_index hasi d.2.1 _ 0 0 cm hcm with h | ⟨v, hv, hocc⟩
  · exact Or.inl h
  · exact Or.inr ⟨d.2, hdd, v, hv, hocc⟩

/-- C4 witness: the single text chunk of `"# A\npara"` carries
`start_index = 4`, and the content does occur at offset 4 of the
document. -/
theorem C4_document_offsets_witness :
    (cfgIndexed.addStartIndex = true ∧
      (tx "para", [(tx "title", MVal.s (tx "# A")), (tx "type", MVal.s (tx "text")),
        (tx "start_index", MVal.i 4)]) ∈ create_documents cfgIndexed [(docA, treeA)] []) ∧
    ((mget [(tx "title", MVal.s (tx "# A")), (tx "type", MVal.s (tx "text")),
        (tx "start_index", MVal.i 4)] (tx "type") = some (MVal.s (tx "image")) ∨
      mget [(tx "title", MVal.s (tx "# A")), (tx "type", MVal.s (tx "text")),
        (tx "start_index", MVal.i 4)] (tx "type") = some (MVal.s (tx "table"))) ∨
     ∃ d ∈ [(docA, treeA)], ∃ v : Int,
       mget [(tx "title", MVal.s (tx "# A")), (tx "type", MVal.s (tx "text")),
         (tx "start_index", MVal.i 4)] (tx "start_index") = some (MVal.i v) ∧
       (0 ≤ v → (d.1.drop v.toNat).take (tx "para").length = tx "para")) :=
  ⟨⟨rfl, by decide⟩,
    C4_document_offsets cfgIndexed rfl [(docA, treeA)] []
      (tx "para", [(tx "title", MVal.s (tx "# A")), (tx "type", MVal.s (tx "text")),
        (tx "start_index", MVal.i 4)]) (by decide)⟩

/-- C5: no chunk produced by `split_text` exceeds `chunk_size` except a
chunk labelled image or table, or a single atomic unit that no configured
separator divides (no separator of the cascade occurs in it), which is
returned whole.  The bounded splitter is modelled from the spec (its
implementation lives in the external `RecursiveCharacterTextSplitter`);
`1 ≤ chunk_size` rules out the degenerate zero bound, and the caller
metadata is assumed not to override the `type` key (see C1). -/
theorem C5_bounded_chunks :
    ∀ (cfg : SplitCfg), 1 ≤ cfg.chunkSize →
    ∀ (tree : List MdNode) (metadata : Meta), mget metadata (tx "type") = none →
    ∀ (c : Tx) (md : Meta), (c, md) ∈ split_text cfg tree metadata →
      mget md (tx "type") = some (MVal.s (tx "image")) ∨
      mget md (tx "type") = some (MVal.s (tx "table")) ∨
      c.length ≤ cfg.chunkSize ∨
      ∀ sep ∈ cfg.seps, occursIn sep c = false := by
  intro cfg hcs tree metadata hty c md h
  obtain ⟨sec, hsec, hlabel, hmd, hkind⟩ := split_text_label h hty
  rcases hkind with ⟨him, hc⟩ | ⟨hk, hc⟩
  · rcases him with hk | hk
    · left
      rw [hlabel, hk]
    · right
      left
      rw [hlabel, hk]
  · rcases boundedSplit_bound hcs cfg.seps (pyStrip sec.body) c hc with h1 | h1
    · exact Or.inr (Or.inr (Or.inl h1))
    · exact Or.inr (Or.inr (Or.inr h1))

/-- C5 witness: the single chunk `"para"` of `"# A\npara"` satisfies the
bound disjunction at chunk size 512. -/
theorem C5_bounded_chunks_witness :
    (1 ≤ cfgPlain.chunkSize ∧ mget ([] : Meta) (tx "type") = none ∧
      (tx "para", [(tx "title", MVal.s (tx "# A")), (tx "type", MVal.s (tx "text"))])
        ∈ split_text cfgPlain treeA []) ∧
    (mget [(tx "title", MVal.s (tx "# A")), (tx "type", MVal.s (tx "text"))] (tx "type")
        = some (MVal.s (tx "image")) ∨
     mget [(tx "title", MVal.s (tx "# A")), (tx "type", MVal.s (tx "text"))] (tx "type")
        = some (MVal.s (tx "table")) ∨
     (tx "para").length ≤ cfgPlain.chunkSize ∨
     ∀ sep ∈ cfgPlain.seps, occursIn sep (tx "para") = false) :=
  ⟨⟨by decide, rfl, by decide⟩,
    C5_bounded_chunks cfgPlain (by decide) treeA [] rfl (tx "para")
      [(tx "title", MVal.s (tx "# A")), (tx "type", MVal.s (tx "text"))] (by decide)⟩

/-- C7 counterexample: the claim says an image chunk always has
`type=image` and never a `start_index`.  But the caller metadata is spread
last (see C1), so a caller-supplied `type` overrides the image label;
`create_documents` then treats the chunk as text and assigns it a
`start_index` even though it is an image unit. -/
theorem C7_counterexample :
    (create_documents cfgIndexed [(tx "![x](u)", [img "u"])]
        [[(tx "type", MVal.s (tx "text"))]]).map
        (fun cm => (cm.1, mget cm.2 (tx "type"), mget cm.2 (tx "start_index"))) =
      [(tx "u", some (MVal.s (tx "text")), some (MVal.i 5))] := by
  decide

/-- C7 (amended): provided the caller base metadata does not supply the
keys `type`, `start_index` or `image_url`, every chunk labelled image
carries an `image_url` and no `start_index`, and every chunk labelled
table carries no `start_index`, even when `add_start_index` is enabled —
image/table chunks pass through the offset loop untouched.  The second
conjunct runs the spec's scenario (an image inside a paragraph under a
heading): exactly one image chunk, content equal to the image's `src`,
`image_url` equal to that `src`, and no `start_index`. -/
theorem C7_nontext_isolation :
    (∀ (cfg : SplitCfg) (docs : List (Tx × List MdNode)) (metadatas : List Meta),
      (∀ m ∈ metadatas, mget m (tx "type") = none ∧
        mget m (tx "start_index") = none ∧ mget m (tx "image_url") = none) →
      ∀ cm ∈ create_documents cfg docs metadatas,
        (mget cm.2 (tx "type") = some (MVal.s (tx "image")) →
          mget cm.2 (tx "start_index") = none ∧
          ∃ u, mget cm.2 (tx "image_url") = some (MVal.s u)) ∧
        (mget cm.2 (tx "type") = some (MVal.s (tx "table")) →
          mget cm.2 (tx "start_index") = none)) ∧
    (create_documents cfgIndexed [(tx "# A\n![x](http://i/1.png)", treeImgPara)] []).map
        (fun cm => (cm.1, mget cm.2 (tx "type"), mget cm.2 (tx "image_url"),
          mget cm.2 (tx "start_index"))) =
      [(tx "http://i/1.png", some (MVal.s (tx "image")),
        some (MVal.s (tx "http://i/1.png")), none)] := by
  constructor
  · intro cfg docs metadatas hall cm hcm
    rw [create_documents] at hcm
    simp only [List.mem_flatMap] at hcm
    obtain ⟨d, hd, hcm⟩ := hcm
    obtain ⟨c, md⟩ := cm
    have hmeta := @metaAt_prop metadatas
      (fun m => mget m (tx "type") = none ∧ mget m (tx "start_index") = none ∧
        mget m (tx "image_url") = none) hall ⟨rfl, rfl, rfl⟩ d.1
    constructor
    · intro him
      have hpass : (c, md) ∈ split_text cfg d.2.2 (metaAt metadatas d.1) :=
        processDoc_passthrough d.2.1 _ 0 0 (c, md) hcm (Or.inl him)
      exact ⟨split_text_start_none hpass hmeta.2.1,
        split_text_image_url hpass hmeta.1 hmeta.2.2 him⟩
    · intro htab
      have hpass : (c, md) ∈ split_text cfg d.2.2 (metaAt metadatas d.1) :=
        processDoc_passthrough d.2.1 _ 0 0 (c, md) hcm (Or.inr htab)
      exact split_text_start_none hpass hmeta.2.1
  · decide

/-- C7 witness: a concrete image chunk of the scenario document satisfies
the amended property. -/
theorem C7_nontext_isolation_witness :
    ((∀ m ∈ ([] : List Meta), mget m (tx "type") = none ∧
        mget m (tx "start_index") = none ∧ mget m (tx "image_url") = none) ∧
      (tx "http://i/1.png",
        [(tx "title", MVal.s (tx "# A")), (tx "type", MVal.s (tx "image")),
          (tx "image_url", MVal.s (tx "http://i/1.png"))]) ∈
        create_documents cfgIndexed [(tx "# A\n![x](http://i/1.png)", treeImgPara)] []) ∧
    ((mget [(tx "title", MVal.s (tx "# A")), (tx "type", MVal.s (tx "image")),
        (tx "image_url", MVal.s (tx "http://i/1.png"))] (tx "type") =
          some (MVal.s (tx "image")) →
      mget [(tx "title", MVal.s (tx "# A")), (tx "type", MVal.s (tx "image")),
        (tx "image_url", MVal.s (tx "http://i/1.png"))] (tx "start_index") = none ∧
      ∃ u, mget [(tx "title", MVal.s (tx "# A")), (tx "type", MVal.s (tx "image")),
        (tx "image_url", MVal.s (tx "http://i/1.png"))] (tx "image_url") =
          some (MVal.s u)) ∧
     (mget [(tx "title", MVal.s (tx "# A")), (tx "type", MVal.s (tx "image")),
        (tx "image_url", MVal.s (tx "http://i/1.png"))] (tx "type") =
          some (MVal.s (tx "table")) →
      mget [(tx "title", MVal.s (tx "# A")), (tx "type", MVal.s (tx "image")),
        (tx "image_url", MVal.s (tx "http://i/1.png"))] (tx "start_index") = none)) :=
  ⟨⟨fun m hm => absurd hm (List.not_mem_nil m), by decide⟩,
    C7_nontext_isolation.1 cfgIndexed [(tx "# A\n![x](http://i/1.png)", treeImgPara)] []
      (fun m hm => absurd hm (List.not_mem_nil m))
      (tx "http://i/1.png",
        [(tx "title", MVal.s (tx "# A")), (tx "type", MVal.s (tx "image")),
          (tx "image_url", MVal.s (tx "http://i/1.png"))]) (by decide)⟩

/-- C8 counterexample: the claim says a caller-supplied separator list
ALWAYS overrides the language default.  With the caller supplying the
empty list in the ZH branch, Python's `or`-truthiness treats it as absent:
the Chinese default cascade is used and `is_separator_regex` is forced to
true, ignoring the caller's list and flag. -/
theorem C8_counterexample :
    get_splitter [tx "。"] (tx "ZH") (some []) false =
      some { seps := some [tx "。"], regexFlag := true } ∧
    (some { seps := some [tx "。"], regexFlag := true } : Option SplitterSel) ≠
      some { seps := some ([] : List Tx), regexFlag := false } := by
  refine ⟨by decide, by decide⟩

/-- C8 (amended): a caller-supplied NON-EMPTY separator list always
overrides the language default and the caller's regex flag is honored (in
both EN and ZH); when no separators were supplied, ZH uses the Chinese
default cascade with `is_separator_regex` forced to true, while EN passes
`None` through with the caller's flag.  An empty caller list is treated as
absent by the ZH branch (see the counterexample). -/
theorem C8_separator_selection :
    (∀ (chSep : List Tx) (l : List Tx) (flag : Bool), l ≠ [] →
      get_splitter chSep (tx "ZH") (some l) flag =
        some { seps := some l, regexFlag := flag } ∧
      get_splitter chSep (tx "EN") (some l) flag =
        some { seps := some l, regexFlag := flag }) ∧
    (∀ (chSep : List Tx) (flag : Bool),
      get_splitter chSep (tx "ZH") none flag =
        some { seps := some chSep, regexFlag := true }) ∧
    (∀ (chSep : List Tx) (flag : Bool),
      get_splitter chSep (tx "EN") none flag =
        some { seps := none, regexFlag := flag }) := by
  refine ⟨?_, ?_, ?_⟩
  · intro chSep l flag hl
    constructor
    · rw [get_splitter, if_neg (by decide), if_pos rfl]
      rw [if_neg hl]
    · rw [get_splitter, if_pos rfl]
  · intro chSep flag
    rw [get_splitter, if_neg (by decide), if_pos rfl]
  · intro chSep flag
    rw [get_splitter, if_pos rfl]

/-- C8 witness: a concrete non-empty caller list overrides the default in
both branches with the flag honored. -/
theorem C8_separator_selection_witness :
    ([tx "\n"] ≠ ([] : List Tx)) ∧
    (get_splitter [tx "。"] (tx "ZH") (some [tx "\n"]) false =
      some { seps := some [tx "\n"], regexFlag := false } ∧
     get_splitter [tx "。"] (tx "EN") (some [tx "\n"]) false =
      some { seps := some [tx "\n"], regexFlag := false }) :=
  ⟨by decide, C8_separator_selection.1 [tx "。"] [tx "\n"] false (by decide)⟩

/-- C9 counterexample: the claim says every section whose body is empty
after trimming is dropped with no chunk produced.  The guard
`if not section_text` only drops the EXACTLY empty body: an image section
whose `src` is a single space (whitespace-only, so empty after trimming)
is not dropped and yields a chunk. -/
theorem C9_counterexample :
    split_text cfgPlain treeWsImg [] =
      [(tx " ", [(tx "title", MVal.s (tx "")), (tx "type", MVal.s (tx "image")),
        (tx "image_url", MVal.s (tx " "))])] ∧
    pyStrip (tx " ") = [] := by
  refine ⟨by decide, by decide⟩

/-- C9 (amended): a section whose body is the empty string yields no chunk
(the falsy-body guard drops it before further processing), and a TEXT
section whose body is merely whitespace also yields no chunk, because the
body is stripped before the recursive split and splitting an empty string
yields no pieces; only a NON-text section with a whitespace-only but
nonempty body escapes (see the counterexample). -/
theorem C9_empty_sections :
    (∀ (cfg : SplitCfg) (metadata : Meta) (t k : Tx) (m : Meta),
      processSection cfg metadata { title := t, body := [], kind := k, smeta := m } = []) ∧
    (∀ (cfg : SplitCfg) (metadata : Meta) (sec : Sec),
      sec.kind = tx "text" → pyStrip sec.body = [] →
      processSection cfg metadata sec = []) := by
  constructor
  · intro cfg metadata t k m
    exact processSection_empty_body
  · intro cfg metadata sec hk ht
    exact processSection_trim_empty hk ht

/-- C9 witness: a concrete whitespace-only text section produces no
chunks. -/
theorem C9_empty_sections_witness :
    ((Sec.mk (tx "T") (tx " \n") (tx "text") []).kind = tx "text" ∧
      pyStrip (Sec.mk (tx "T") (tx " \n") (tx "text") []).body = []) ∧
    processSection cfgPlain [] (Sec.mk (tx "T") (tx " \n") (tx "text") []) = [] :=
  ⟨⟨rfl, by decide⟩,
    C9_empty_sections.2 cfgPlain [] (Sec.mk (tx "T") (tx " \n") (tx "text") [])
      rfl (by decide)⟩

/-- C10: `create_documents` never mutates the caller-supplied metadata
dicts.  On the store-passing model, the caller metadata for each document
is deep-copied into a fresh reference, every chunk's merged dict is a
fresh allocation, and the `start_index` assignment writes only to those
fresh dicts — so every reference allocated before the call reads exactly
the same dict afterwards. -/
theorem C10_no_caller_mutation :
    ∀ (cfg : SplitCfg) (docs : List (Tx × List MdNode)) (metaRefs : List Nat)
      (st : Store) (r : Nat), r < st.length →
      readRef (create_documents_st cfg docs metaRefs st).1 r = readRef st r := by
  intro cfg docs metaRefs st r hr
  rw [create_documents_st]
  exact (foldl_cdStepSt_extends cfg metaRefs docs.enum (st, [])).2 r hr

/-- C10 witness: a concrete one-dict store is unchanged by a full
`create_documents` run that reads it. -/
theorem C10_no_caller_mutation_witness :
    (0 < ([[(tx "k", MVal.s (tx "v"))]] : Store).length) ∧
    readRef (create_documents_st cfgIndexed [(docA, treeA)] [0]
      [[(tx "k", MVal.s (tx "v"))]]).1 0 = readRef [[(tx "k", MVal.s (tx "v"))]] 0 :=
  ⟨by decide,
    C10_no_caller_mutation cfgIndexed [(docA, treeA)] [0]
      [[(tx "k", MVal.s (tx "v"))]] 0 (by decide)⟩

end Wenqu
